import Mathlib

/-
  Verification of the Token-Flight reward distribution engine.

  The development shallowly embeds the two components of the engine:

  * `generate_distribution` — proportional allocation of a total amount over
    miners by normalized participation percentage, with 8-decimal rounding and
    a rounding-discrepancy correction applied to the largest recipient;
  * `BlockHeightCollector` — `get_latest_outgoing_block` (single page of the
    50 newest transactions, newest first) and
    `get_blocks_since_last_outgoing` (paginated walk of the whole feed in
    pages of 100, collecting inclusion heights above a reference height into
    a set, returned ascending).

  Numeric model: Python float arithmetic is idealized as exact rational
  arithmetic (`ℚ`); Python's `round(x, 8)` is modelled as exact
  round-half-to-even at 8 decimal places.  A Python exception that escapes a
  function is modelled as `Option.none`; a caught exception follows the
  source's `except` branch.
-/

namespace TokenFlight

/-! ## Definitions (shallow embedding of the source) -/

/-- Round a rational to the nearest integer, ties to the even integer
(Python's rounding mode for `round`). -/
def roundHalfEven (q : ℚ) : ℤ :=
  let f : ℤ := ⌊q⌋
  let r : ℚ := q - f
  if r < 1/2 then f
  else if 1/2 < r then f + 1
  else if Even f then f else f + 1

/-- Python `round(x, 8)`. -/
def pyRound8 (q : ℚ) : ℚ := (roundHalfEven (q * 100000000) : ℚ) / 100000000

/-- `q` is representable with 8 decimal places (a fixed-point value). -/
def is8dp (q : ℚ) : Prop := ∃ z : ℤ, q = (z : ℚ) / 100000000

/-- One entry of `miners_data["miners"]`. -/
structure Miner where
  miner_address : String
  avg_participation_percentage : ℚ
deriving DecidableEq

/-- One entry of the produced `recipients` list. -/
structure Recipient where
  address : String
  amount : ℚ
deriving DecidableEq

/-- The inner record of the produced payload:
`{"token_name": ..., "recipients": [...]}`. -/
structure Distribution where
  token_name : String
  recipients : List Recipient
deriving DecidableEq

/-- `total_percentage = sum(miner['avg_participation_percentage'] ...)`. -/
def totalPercentage (miners : List Miner) : ℚ :=
  (miners.map (·.avg_participation_percentage)).sum

/-- First pass of `generate_distribution`: normalized percentage, rounded
amount, zero-amount participants dropped. -/
def firstPass (miners : List Miner) (total_amount : ℚ) : List Recipient :=
  miners.filterMap (fun m =>
    let amount := pyRound8 (total_amount *
      (m.avg_participation_percentage / totalPercentage miners))
    if 0 < amount then some ⟨m.miner_address, amount⟩ else none)

/-- `running_total` / the final recipient-amount sum. -/
def runningTotal (rs : List Recipient) : ℚ := (rs.map (·.amount)).sum

/-- Index of the first maximal element of a list of amounts — the semantics
of Python's `max(recipients, key=lambda x: x['amount'])`, which returns the
first item encountered whose key is maximal. -/
def firstMaxIdx : List ℚ → ℕ
  | [] => 0
  | a :: rest =>
    let j := firstMaxIdx rest
    match rest.get? j with
    | none => 0
    | some b => if a < b then j + 1 else 0

/-- In-place mutation `largest_recipient['amount'] = round(... + discrepancy, 8)`
of the recipient at index `i`. -/
def addToIdx (disc : ℚ) : List Recipient → ℕ → List Recipient
  | [], _ => []
  | r :: rs, 0 => ⟨r.address, pyRound8 (r.amount + disc)⟩ :: rs
  | r :: rs, n + 1 => r :: addToIdx disc rs n

/-- The `# Adjust for any rounding discrepancy` block of
`generate_distribution`. -/
def applyCorrection (total_amount : ℚ) (rs : List Recipient) : List Recipient :=
  if rs = [] then rs
  else
    let disc := pyRound8 (total_amount - runningTotal rs)
    if disc ≠ 0 then addToIdx disc rs (firstMaxIdx (rs.map (·.amount))) else rs

/-- `generate_distribution(miners_data, total_amount, token_name)`.

A nonempty miner list whose percentages sum to zero raises
`ZeroDivisionError` at the first normalization, modelled as `none`. -/
def generate_distribution (miners : List Miner) (total_amount : ℚ)
    (token_name : String) : Option Distribution :=
  match miners with
  | [] => some ⟨token_name, []⟩
  | _ :: _ =>
    if totalPercentage miners = 0 then none
    else some ⟨token_name, applyCorrection total_amount (firstPass miners total_amount)⟩

/-- One record of the `/addresses/{addr}/transactions` feed:
its `inclusionHeight` and the `address` fields of its `inputs`
(`none` models an input object with no `address` key). -/
structure Tx where
  inclusionHeight : ℤ
  inputs : List (Option String)
deriving DecidableEq

/-- The page of records served at `offset` with page size `limit`:
`data["items"]`. -/
def page (history : List Tx) (offset limit : ℕ) : List Tx :=
  (history.drop offset).take limit

/-- `any(input_data.get("address") == self.wallet_address for input_data in
tx.get("inputs", []))`. -/
def isOutgoingTx (wallet : String) (tx : Tx) : Bool :=
  tx.inputs.any (fun a => a = some wallet)

/-- The page limit of the single fetch in `get_latest_outgoing_block`
(`params={"offset": 0, "limit": 50}`). -/
def latestOutgoingPageLimit : ℕ := 50

/-- The page limit of the pagination loop in
`get_blocks_since_last_outgoing` (`limit = 100`). -/
def blocksSincePageLimit : ℕ := 100

/-- `get_latest_outgoing_block`: one request for the newest
`latestOutgoingPageLimit` records, returning the inclusion height of the
first (most recent) one whose inputs carry the wallet address, else `0`.
`fail = true` models a request exception: the `except` branch returns `0`. -/
def get_latest_outgoing_block (history : List Tx) (wallet : String)
    (fail : Bool) : ℤ :=
  if fail then 0
  else
    match (page history 0 latestOutgoingPageLimit).find? (isOutgoingTx wallet) with
    | some tx => tx.inclusionHeight
    | none => 0

/-- `for tx in data["items"]: if tx.get("inclusionHeight", 0) > min_block:
all_blocks.add(tx["inclusionHeight"])`. -/
def addPage (min_block : ℤ) (acc : Finset ℤ) (items : List Tx) : Finset ℤ :=
  items.foldl (fun s tx =>
    if min_block < tx.inclusionHeight then insert tx.inclusionHeight s else s) acc

/-- The `while True` pagination loop of `get_blocks_since_last_outgoing`:
fetch a page, stop on an empty page, accumulate qualifying heights, stop on
a short page, otherwise advance the offset by `limit`.  A failed fetch
(`fails offset = true`) raises, modelled as `none`. -/
def collectLoop (history : List Tx) (fails : ℕ → Bool) (min_block : ℤ)
    (limit offset : ℕ) (acc : Finset ℤ) : Option (Finset ℤ) :=
  if fails offset then none
  else if hE : page history offset limit = [] then some acc
  else if (page history offset limit).length < limit then
    some (addPage min_block acc (page history offset limit))
  else
    collectLoop history fails min_block limit (offset + limit)
      (addPage min_block acc (page history offset limit))
termination_by history.length - offset
decreasing_by
  rename_i hF hL
  have hlim : 0 < limit := by
    rcases Nat.eq_zero_or_pos limit with h0 | h0
    · exact absurd (by simp [page, h0]) hE
    · exact h0
  have hoff : offset < history.length := by
    by_contra hc
    push_neg at hc
    exact hE (by simp [page, List.drop_eq_nil_of_le hc])
  exact Nat.sub_lt_sub_left hoff (Nat.lt_add_of_pos_right hlim)

/-- The paginated collection plus the final `sorted(list(all_blocks))`,
still parameterized by the loop's `limit` variable. -/
def collectBlocksWith (history : List Tx) (fails : ℕ → Bool) (min_block : ℤ)
    (limit : ℕ) : Option (List ℤ) :=
  (collectLoop history fails min_block limit 0 ∅).map (fun s => s.sort (· ≤ ·))

/-- `get_blocks_since_last_outgoing`.  `latest` is the value returned by the
`self.get_latest_outgoing_block()` call; the source immediately overwrites
it with the literal `1449260`.  `if not min_block: return []` tests the
Python truthiness of the int, i.e. whether it is `0`.  A raised error inside
the loop lands in the `except` branch, which returns `[]`. -/
def get_blocks_since_last_outgoing (history : List Tx) (fails : ℕ → Bool)
    (latest : ℤ) : List ℤ :=
  let min_block := latest
  let min_block := (1449260 : ℤ)
  if min_block = 0 then []
  else
    match collectBlocksWith history fails min_block blocksSincePageLimit with
    | some blocks => blocks
    | none => []

/-- A failure-free fetch oracle. -/
def noFail : ℕ → Bool := fun _ => false

/-- The set of inclusion heights of a record list that lie strictly above
the reference height. -/
def qualifying (min_block : ℤ) (txs : List Tx) : Finset ℤ :=
  ((txs.filter (fun tx => min_block < tx.inclusionHeight)).map
    (·.inclusionHeight)).toFinset

/-- Three equal-weight miners. -/
def minersA : List Miner :=
  [⟨"addr_a", 1⟩, ⟨"addr_b", 1⟩, ⟨"addr_c", 1⟩]

/-- The distribution produced for `minersA` with total amount 1:
first-pass amounts `0.33333333` each, and the `0.00000001` rounding
discrepancy added to the first recipient. -/
def dA : Distribution :=
  ⟨"ergo", [⟨"addr_a", 33333334/100000000⟩, ⟨"addr_b", 33333333/100000000⟩,
            ⟨"addr_c", 33333333/100000000⟩]⟩

/-- The first-pass recipient list for `minersA` and total amount 1. -/
def rsA : List Recipient :=
  [⟨"addr_a", 33333333/100000000⟩, ⟨"addr_b", 33333333/100000000⟩,
   ⟨"addr_c", 33333333/100000000⟩]

/-- A fetch oracle that fails on every offset. -/
def failAll : ℕ → Bool := fun _ => true

/-- A one-record history with a qualifying height. -/
def histC : List Tx := [⟨1500000, []⟩]

/-- A one-record history used for the block-set invariants. -/
def histB : List Tx := [⟨10, []⟩]

/-- The 54-record feed of `fix_transaction_limit.md`: 50 records at or
below the reference height 1509800, then the four qualifying records
(positions 51–54, heights 1509846, 1509996, 1510211, 1510299). -/
def feed54 : List Tx :=
  List.replicate 50 ⟨1509700, []⟩ ++
    [⟨1509846, []⟩, ⟨1509996, []⟩, ⟨1510211, []⟩, ⟨1510299, []⟩]

/-- A 51-record history whose only outgoing record is at position 51. -/
def hist51 : List Tx :=
  List.replicate 50 ⟨2000, [some "addr_x"]⟩ ++ [⟨1000, [some "addr_w"]⟩]

/-! ## Theorems -/

theorem roundHalfEven_intCast (z : ℤ) : roundHalfEven (z : ℚ) = z := by
  unfold roundHalfEven
  simp

theorem is8dp_pyRound8 (q : ℚ) : is8dp (pyRound8 q) :=
  ⟨roundHalfEven (q * 100000000), rfl⟩

theorem pyRound8_of_is8dp {q : ℚ} (h : is8dp q) : pyRound8 q = q := by
  obtain ⟨z, rfl⟩ := h
  unfold pyRound8
  have hz : (z : ℚ) / 100000000 * 100000000 = (z : ℚ) := by
    field_simp
  rw [hz, roundHalfEven_intCast]

theorem is8dp_add {a b : ℚ} (ha : is8dp a) (hb : is8dp b) : is8dp (a + b) := by
  obtain ⟨x, rfl⟩ := ha
  obtain ⟨y, rfl⟩ := hb
  exact ⟨x + y, by push_cast; ring⟩

theorem is8dp_sub {a b : ℚ} (ha : is8dp a) (hb : is8dp b) : is8dp (a - b) := by
  obtain ⟨x, rfl⟩ := ha
  obtain ⟨y, rfl⟩ := hb
  exact ⟨x - y, by push_cast; ring⟩

theorem is8dp_zero : is8dp 0 := ⟨0, by norm_num⟩

theorem mem_qualifying (min_block : ℤ) (txs : List Tx) (x : ℤ) :
    x ∈ qualifying min_block txs ↔
      ∃ tx ∈ txs, min_block < tx.inclusionHeight ∧ tx.inclusionHeight = x := by
  simp [qualifying, List.mem_filter, and_assoc]

theorem qualifying_nil (min_block : ℤ) : qualifying min_block [] = ∅ := rfl

theorem qualifying_append (min_block : ℤ) (a b : List Tx) :
    qualifying min_block (a ++ b) =
      qualifying min_block a ∪ qualifying min_block b := by
  simp [qualifying, List.filter_append]

theorem mem_addPage (min_block : ℤ) (items : List Tx) :
    ∀ (acc : Finset ℤ) (x : ℤ),
      x ∈ addPage min_block acc items ↔
        x ∈ acc ∨ x ∈ qualifying min_block items := by
  induction items with
  | nil => intro acc x; simp [addPage, qualifying]
  | cons tx rest ih =>
    intro acc x
    have h1 : addPage min_block acc (tx :: rest) =
        addPage min_block
          (if min_block < tx.inclusionHeight then insert tx.inclusionHeight acc
           else acc) rest := rfl
    rw [h1, ih]
    rw [mem_qualifying, mem_qualifying]
    by_cases hc : min_block < tx.inclusionHeight
    · simp only [hc, if_pos, Finset.mem_insert]
      constructor
      · rintro ((rfl | hx) | ⟨tx2, h2, h3, h4⟩)
        · exact Or.inr ⟨tx, by simp, hc, rfl⟩
        · exact Or.inl hx
        · exact Or.inr ⟨tx2, by simp [h2], h3, h4⟩
      · rintro (hx | ⟨tx2, h2, h3, h4⟩)
        · exact Or.inl (Or.inr hx)
        · rcases List.mem_cons.mp h2 with rfl | h2
          · exact Or.inl (Or.inl h4.symm)
          · exact Or.inr ⟨tx2, h2, h3, h4⟩
    · simp only [hc, if_neg, not_false_iff]
      constructor
      · rintro (hx | ⟨tx2, h2, h3, h4⟩)
        · exact Or.inl hx
        · exact Or.inr ⟨tx2, by simp [h2], h3, h4⟩
      · rintro (hx | ⟨tx2, h2, h3, h4⟩)
        · exact Or.inl hx
        · rcases List.mem_cons.mp h2 with rfl | h2
          · exact absurd h3 hc
          · exact Or.inr ⟨tx2, h2, h3, h4⟩

theorem addPage_eq (min_block : ℤ) (acc : Finset ℤ) (items : List Tx) :
    addPage min_block acc items = acc ∪ qualifying min_block items :=
  Finset.ext fun x => by rw [mem_addPage, Finset.mem_union]

/-- A full page splits the remaining history into the page and the rest. -/
theorem drop_eq_page_append (history : List Tx) (offset limit : ℕ) :
    history.drop offset =
      page history offset limit ++ history.drop (offset + limit) := by
  unfold page
  conv_lhs => rw [← List.take_append_drop limit (history.drop offset)]
  rw [List.drop_drop]

/-- With a failure-free fetch oracle and a positive page size, the loop
collects exactly the qualifying heights of the whole remaining history. -/
theorem collectLoop_noFail (history : List Tx) (min_block : ℤ) (limit : ℕ)
    (hl : 0 < limit) :
    ∀ (n offset : ℕ) (acc : Finset ℤ), history.length - offset ≤ n →
      collectLoop history noFail min_block limit offset acc =
        some (acc ∪ qualifying min_block (history.drop offset)) := by
  intro n
  induction n with
  | zero =>
    intro offset acc h
    have hd : history.drop offset = [] :=
      List.drop_eq_nil_of_le (Nat.sub_eq_zero_iff_le.mp (Nat.le_zero.mp h))
    rw [collectLoop]
    simp [noFail, page, hd, qualifying]
  | succ n ih =>
    intro offset acc h
    rw [collectLoop]
    by_cases hE : page history offset limit = []
    · have hd : history.drop offset = [] := by
        rcases List.take_eq_nil_iff.mp hE with h0 | h0
        · exact absurd h0 (Nat.pos_iff_ne_zero.mp hl)
        · exact h0
      simp [noFail, hE, hd, qualifying]
    · by_cases hS : (page history offset limit).length < limit
      · have hdlen : (history.drop offset).length < limit := by
          rw [List.length_drop]
          by_contra hc
          push_neg at hc
          have hplen : (page history offset limit).length = limit := by
            simp only [page, List.length_take, List.length_drop]
            omega
          omega
        have hpage : page history offset limit = history.drop offset :=
          List.take_of_length_le (le_of_lt hdlen)
        simp only [noFail, Bool.false_eq_true, if_false, dif_neg hE, if_pos hS]
        rw [hpage, addPage_eq]
      · have hoff : offset < history.length := by
          by_contra hc
          push_neg at hc
          exact hE (by simp [page, List.drop_eq_nil_of_le hc])
        have hmeas : history.length - (offset + limit) ≤ n := by omega
        simp only [noFail, Bool.false_eq_true, if_false, dif_neg hE, if_neg hS]
        rw [ih (offset + limit) _ hmeas, addPage_eq]
        rw [drop_eq_page_append history offset limit, qualifying_append,
          Finset.union_assoc]

/-- Whatever the fetch oracle, page size and starting accumulator, every
height the loop returns is either from the accumulator or strictly above
the reference height. -/
theorem collectLoop_mem (history : List Tx) (fails : ℕ → Bool)
    (min_block : ℤ) (limit : ℕ) :
    ∀ (n offset : ℕ) (acc s : Finset ℤ), history.length - offset ≤ n →
      collectLoop history fails min_block limit offset acc = some s →
      ∀ x ∈ s, x ∈ acc ∨ min_block < x := by
  intro n
  induction n with
  | zero =>
    intro offset acc s h hs x hx
    have hd : history.drop offset = [] :=
      List.drop_eq_nil_of_le (Nat.sub_eq_zero_iff_le.mp (Nat.le_zero.mp h))
    rw [collectLoop] at hs
    by_cases hF : fails offset
    · simp [hF] at hs
    · simp [hF, page, hd] at hs
      subst hs
      exact Or.inl hx
  | succ n ih =>
    intro offset acc s h hs x hx
    rw [collectLoop] at hs
    by_cases hF : fails offset
    · simp [hF] at hs
    · by_cases hE : page history offset limit = []
      · simp [hF, hE] at hs
        subst hs
        exact Or.inl hx
      · by_cases hS : (page history offset limit).length < limit
        · simp only [hF, Bool.false_eq_true, if_false, dif_neg hE, if_pos hS,
            Option.some.injEq] at hs
          subst hs
          rcases (mem_addPage _ _ _ _).mp hx with hx | hx
          · exact Or.inl hx
          · rcases (mem_qualifying _ _ _).mp hx with ⟨tx, _, h3, h4⟩
            exact Or.inr (h4 ▸ h3)
        · have hoff : offset < history.length := by
            by_contra hc
            push_neg at hc
            exact hE (by simp [page, List.drop_eq_nil_of_le hc])
          have hlim : 0 < limit := by
            rcases Nat.eq_zero_or_pos limit with h0 | h0
            · exact absurd (by simp [page, h0]) hE
            · exact h0
          have hmeas : history.length - (offset + limit) ≤ n := by omega
          simp only [hF, Bool.false_eq_true, if_false, dif_neg hE, if_neg hS] at hs
          rcases ih (offset + limit) _ s hmeas hs x hx with hx2 | hx2
          · rcases (mem_addPage _ _ _ _).mp hx2 with hx3 | hx3
            · exact Or.inl hx3
            · rcases (mem_qualifying _ _ _).mp hx3 with ⟨tx, _, h3, h4⟩
              exact Or.inr (h4 ▸ h3)
          · exact Or.inr hx2

theorem fmi_lt : ∀ (l : List ℚ), l ≠ [] → firstMaxIdx l < l.length := by
  intro l
  induction l with
  | nil => intro h; exact absurd rfl h
  | cons a rest ih =>
    intro _
    rw [firstMaxIdx]
    cases h : rest.get? (firstMaxIdx rest) with
    | none => simp
    | some b =>
      simp only []
      by_cases hab : a < b
      · obtain ⟨hj, _⟩ := List.get?_eq_some.mp h
        simp only [if_pos hab, List.length_cons]
        omega
      · simp [if_neg hab]

theorem fmi_max : ∀ (l : List ℚ) (j : ℕ) (x b : ℚ),
    l.get? j = some x → l.get? (firstMaxIdx l) = some b → x ≤ b := by
  intro l
  induction l with
  | nil => intro j x b hx; simp at hx
  | cons a rest ih =>
    intro j x b hx hb
    cases hr : rest.get? (firstMaxIdx rest) with
    | none =>
      have hrest : rest = [] := by
        by_contra hne
        exact absurd (List.get?_eq_none.mp hr) (not_le.mpr (fmi_lt rest hne))
      subst hrest
      have hfmi : firstMaxIdx [a] = 0 := rfl
      rw [hfmi] at hb
      cases j with
      | zero =>
        simp only [List.get?_cons_zero, Option.some.injEq] at hx hb
        rw [← hx, ← hb]
      | succ m => simp at hx
    | some b2 =>
      by_cases hab : a < b2
      · have hfmi : firstMaxIdx (a :: rest) = firstMaxIdx rest + 1 := by
          simp only [firstMaxIdx]
          rw [hr]
          simp [hab]
        rw [hfmi, List.get?_cons_succ, hr, Option.some.injEq] at hb
        subst hb
        cases j with
        | zero =>
          simp only [List.get?_cons_zero, Option.some.injEq] at hx
          rw [← hx]
          exact le_of_lt hab
        | succ m =>
          rw [List.get?_cons_succ] at hx
          exact ih m x b2 hx hr
      · have hfmi : firstMaxIdx (a :: rest) = 0 := by
          simp only [firstMaxIdx]
          rw [hr]
          simp [hab]
        rw [hfmi, List.get?_cons_zero, Option.some.injEq] at hb
        subst hb
        cases j with
        | zero =>
          simp only [List.get?_cons_zero, Option.some.injEq] at hx
          rw [← hx]
        | succ m =>
          rw [List.get?_cons_succ] at hx
          exact le_trans (ih m x b2 hx hr) (not_lt.mp hab)

theorem fmi_first : ∀ (l : List ℚ) (j : ℕ) (x b : ℚ), j < firstMaxIdx l →
    l.get? j = some x → l.get? (firstMaxIdx l) = some b → x < b := by
  intro l
  induction l with
  | nil => intro j x b _ hx; simp at hx
  | cons a rest ih =>
    intro j x b hj hx hb
    cases hr : rest.get? (firstMaxIdx rest) with
    | none =>
      have hfmi : firstMaxIdx (a :: rest) = 0 := by
        simp only [firstMaxIdx]
        rw [hr]
      omega
    | some b2 =>
      by_cases hab : a < b2
      · have hfmi : firstMaxIdx (a :: rest) = firstMaxIdx rest + 1 := by
          simp only [firstMaxIdx]
          rw [hr]
          simp [hab]
        rw [hfmi, List.get?_cons_succ, hr, Option.some.injEq] at hb
        subst hb
        rw [hfmi] at hj
        cases j with
        | zero =>
          simp only [List.get?_cons_zero, Option.some.injEq] at hx
          rw [← hx]
          exact hab
        | succ m =>
          rw [List.get?_cons_succ] at hx
          exact ih m x b2 (by omega) hx hr
      · have hfmi : firstMaxIdx (a :: rest) = 0 := by
          simp only [firstMaxIdx]
          rw [hr]
          simp [hab]
        omega

theorem length_addToIdx (d : ℚ) :
    ∀ (rs : List Recipient) (i : ℕ), (addToIdx d rs i).length = rs.length := by
  intro rs
  induction rs with
  | nil => intro i; rfl
  | cons r rest ih =>
    intro i
    cases i with
    | zero => rfl
    | succ n => simp [addToIdx, ih]

theorem addToIdx_set (d : ℚ) :
    ∀ (rs : List Recipient) (i : ℕ) (hi : i < rs.length),
      addToIdx d rs i = rs.set i
        ⟨(rs.get ⟨i, hi⟩).address, pyRound8 ((rs.get ⟨i, hi⟩).amount + d)⟩ := by
  intro rs
  induction rs with
  | nil => intro i hi; simp at hi
  | cons r rest ih =>
    intro i hi
    cases i with
    | zero => rfl
    | succ n =>
      have hn : n < rest.length := by simpa using hi
      show r :: addToIdx d rest n = r :: rest.set n _
      rw [ih n hn]
      rfl

theorem get_addToIdx_ne (d : ℚ) :
    ∀ (rs : List Recipient) (i j : ℕ) (hj : j < rs.length), j ≠ i →
      ∀ (hj2 : j < (addToIdx d rs i).length),
        (addToIdx d rs i).get ⟨j, hj2⟩ = rs.get ⟨j, hj⟩ := by
  intro rs
  induction rs with
  | nil => intro i j hj; simp at hj
  | cons r rest ih =>
    intro i j hj hne hj2
    cases i with
    | zero =>
      cases j with
      | zero => exact absurd rfl hne
      | succ m => rfl
    | succ n =>
      cases j with
      | zero => rfl
      | succ m =>
        have hm : m < rest.length := by simpa using hj
        show (addToIdx d rest n).get ⟨m, _⟩ = rest.get ⟨m, hm⟩
        exact ih n m hm (by omega) _

theorem get_addToIdx_eq (d : ℚ) :
    ∀ (rs : List Recipient) (i : ℕ) (hi : i < rs.length)
      (hi2 : i < (addToIdx d rs i).length),
      (addToIdx d rs i).get ⟨i, hi2⟩ =
        ⟨(rs.get ⟨i, hi⟩).address, pyRound8 ((rs.get ⟨i, hi⟩).amount + d)⟩ := by
  intro rs
  induction rs with
  | nil => intro i hi; simp at hi
  | cons r rest ih =>
    intro i hi hi2
    cases i with
    | zero => rfl
    | succ n =>
      have hn : n < rest.length := by simpa using hi
      show (addToIdx d rest n).get ⟨n, _⟩ = _
      exact ih n hn _

theorem runningTotal_nil : runningTotal [] = 0 := rfl

theorem runningTotal_cons (r : Recipient) (rs : List Recipient) :
    runningTotal (r :: rs) = r.amount + runningTotal rs := by
  simp [runningTotal]

theorem runningTotal_addToIdx (d : ℚ) :
    ∀ (rs : List Recipient) (i : ℕ) (hi : i < rs.length),
      runningTotal (addToIdx d rs i) =
        runningTotal rs - (rs.get ⟨i, hi⟩).amount
          + pyRound8 ((rs.get ⟨i, hi⟩).amount + d) := by
  intro rs
  induction rs with
  | nil => intro i hi; simp at hi
  | cons r rest ih =>
    intro i hi
    cases i with
    | zero =>
      show runningTotal (⟨r.address, pyRound8 (r.amount + d)⟩ :: rest)
          = runningTotal (r :: rest) - r.amount + pyRound8 (r.amount + d)
      rw [runningTotal_cons, runningTotal_cons]
      show pyRound8 (r.amount + d) + runningTotal rest
          = r.amount + runningTotal rest - r.amount + pyRound8 (r.amount + d)
      ring
    | succ n =>
      have hn : n < rest.length := by simpa using hi
      show runningTotal (r :: addToIdx d rest n)
          = runningTotal (r :: rest) - (rest.get ⟨n, hn⟩).amount
            + pyRound8 ((rest.get ⟨n, hn⟩).amount + d)
      rw [runningTotal_cons, runningTotal_cons, ih n hn]
      ring

theorem firstPass_is8dp (miners : List Miner) (t : ℚ) :
    ∀ r ∈ firstPass miners t, is8dp r.amount := by
  intro r hr
  simp only [firstPass, List.mem_filterMap] at hr
  obtain ⟨m, _, hsome⟩ := hr
  split_ifs at hsome with hpos
  · obtain rfl := Option.some.inj hsome
    exact is8dp_pyRound8 _

theorem is8dp_runningTotal :
    ∀ (rs : List Recipient), (∀ r ∈ rs, is8dp r.amount) →
      is8dp (runningTotal rs) := by
  intro rs
  induction rs with
  | nil => intro _; exact is8dp_zero
  | cons r rest ih =>
    intro h
    rw [runningTotal_cons]
    exact is8dp_add (h r (by simp)) (ih fun x hx => h x (by simp [hx]))

/-- The rounding-discrepancy correction restores the exact total whenever it
runs on a nonempty recipient list of 8-decimal amounts and an 8-decimal
total. -/
theorem runningTotal_applyCorrection (t : ℚ) (rs : List Recipient)
    (hrs : rs ≠ []) (h8 : ∀ r ∈ rs, is8dp r.amount) (ht8 : is8dp t) :
    runningTotal (applyCorrection t rs) = t := by
  unfold applyCorrection
  rw [if_neg hrs]
  have hW8 : is8dp (runningTotal rs) := is8dp_runningTotal rs h8
  have hdisc : pyRound8 (t - runningTotal rs) = t - runningTotal rs :=
    pyRound8_of_is8dp (is8dp_sub ht8 hW8)
  by_cases hd : pyRound8 (t - runningTotal rs) ≠ 0
  · simp only [if_pos hd]
    have hmapne : rs.map (·.amount) ≠ [] := by
      simpa [List.map_eq_nil_iff] using hrs
    have hi : firstMaxIdx (rs.map (·.amount)) < rs.length := by
      have := fmi_lt (rs.map (·.amount)) hmapne
      simpa using this
    rw [runningTotal_addToIdx _ rs _ hi]
    have ha8 : is8dp ((rs.get ⟨firstMaxIdx (rs.map (·.amount)), hi⟩).amount) :=
      h8 _ (List.get_mem rs _ hi)
    rw [pyRound8_of_is8dp (is8dp_add ha8 (is8dp_pyRound8 _)), hdisc]
    ring
  · push_neg at hd
    simp only [hd, ne_eq, not_true_eq_false, if_false]
    rw [hdisc] at hd
    linarith [sub_eq_zero.mp (by linarith [hd] : t - runningTotal rs = 0)]

theorem sort_eq_of_sorted_nodup (s : Finset ℤ) (l : List ℤ)
    (hs : l.Sorted (· ≤ ·)) (hn : l.Nodup) (hf : l.toFinset = s) :
    s.sort (· ≤ ·) = l :=
  List.eq_of_perm_of_sorted
    (List.perm_of_nodup_nodup_toFinset_eq (Finset.sort_nodup _ s) hn
      (by rw [Finset.sort_toFinset _ s, hf]))
    (Finset.sort_sorted _ s) hs

/-- `find?` returns the element at the first index whose predicate holds. -/
theorem find?_first (p : Tx → Bool) : ∀ (l : List Tx) (i : ℕ) (tx : Tx),
    l.get? i = some tx → p tx = true →
    (∀ j, j < i → ∀ tx2, l.get? j = some tx2 → p tx2 = false) →
    l.find? p = some tx := by
  intro l
  induction l with
  | nil => intro i tx h; simp at h
  | cons a rest ih =>
    intro i tx hget hp hmin
    cases i with
    | zero =>
      rw [List.get?_cons_zero, Option.some.injEq] at hget
      subst hget
      exact List.find?_cons_of_pos rest hp
    | succ m =>
      have hpa : p a = false := hmin 0 (by omega) a List.get?_cons_zero
      rw [List.find?_cons_of_neg rest (by simp [hpa])]
      rw [List.get?_cons_succ] at hget
      exact ih m tx hget hp
        (fun j hj tx2 hg => hmin (j + 1) (by omega) tx2 (by rwa [List.get?_cons_succ]))

theorem roundHalfEven_eq_of_lt_half (x : ℚ) (z : ℤ) (h1 : (z : ℚ) ≤ x)
    (h2 : x < (z : ℚ) + 1/2) : roundHalfEven x = z := by
  have hf : ⌊x⌋ = z := by
    rw [Int.floor_eq_iff]
    exact ⟨h1, by push_cast; linarith⟩
  simp only [roundHalfEven]
  rw [hf, if_pos (by linarith : x - (z : ℚ) < 1/2)]

theorem applyCorrection_nil (t : ℚ) : applyCorrection t [] = [] := by
  simp [applyCorrection]

theorem generate_distribution_some (miners : List Miner) (t : ℚ)
    (name : String) (d : Distribution)
    (h : generate_distribution miners t name = some d) :
    (miners = [] ∧ d = ⟨name, []⟩) ∨
      (totalPercentage miners ≠ 0 ∧
        d = ⟨name, applyCorrection t (firstPass miners t)⟩) := by
  cases miners with
  | nil => exact Or.inl ⟨rfl, (Option.some.inj h).symm⟩
  | cons m ms =>
    right
    by_cases h0 : totalPercentage (m :: ms) = 0
    · simp only [generate_distribution] at h
      rw [if_pos h0] at h
      exact absurd h (by simp)
    · simp only [generate_distribution] at h
      rw [if_neg h0] at h
      exact ⟨h0, (Option.some.inj h).symm⟩

theorem generate_distribution_recipients (miners : List Miner) (t : ℚ)
    (name : String) (d : Distribution)
    (h : generate_distribution miners t name = some d)
    (hne : d.recipients ≠ []) :
    d.recipients = applyCorrection t (firstPass miners t) ∧
      firstPass miners t ≠ [] := by
  rcases generate_distribution_some miners t name d h with ⟨hm, rfl⟩ | ⟨h0, rfl⟩
  · exact absurd rfl hne
  · refine ⟨rfl, ?_⟩
    intro hfp
    apply hne
    show applyCorrection t (firstPass miners t) = []
    rw [hfp]
    exact applyCorrection_nil t

theorem pyRound8_third : pyRound8 ((1 : ℚ) / 3) = 33333333/100000000 := by
  unfold pyRound8
  rw [roundHalfEven_eq_of_lt_half (((1 : ℚ) / 3) * 100000000) 33333333
    (by norm_num) (by norm_num)]
  norm_num

theorem generate_distribution_minersA :
    generate_distribution minersA 1 "ergo" = some dA := by
  have hdisc : pyRound8 (1 / 100000000) = 1 / 100000000 :=
    pyRound8_of_is8dp ⟨1, by norm_num⟩
  have hadd : pyRound8 (16666667 / 50000000) = 33333334 / 100000000 := by
    rw [pyRound8_of_is8dp ⟨33333334, by norm_num⟩]
    norm_num
  show generate_distribution [⟨"addr_a", 1⟩, ⟨"addr_b", 1⟩, ⟨"addr_c", 1⟩] 1 "ergo"
      = some dA
  simp only [generate_distribution, totalPercentage, firstPass, applyCorrection,
    runningTotal, firstMaxIdx, addToIdx, minersA, dA, List.map_cons, List.map_nil,
    List.sum_cons, List.sum_nil, List.filterMap_cons, List.filterMap_nil]
  norm_num [pyRound8_third, hdisc, hadd, firstMaxIdx, addToIdx]
  simp

theorem get?_addToIdx_ne (d : ℚ) :
    ∀ (rs : List Recipient) (i j : ℕ), j ≠ i →
      (addToIdx d rs i).get? j = rs.get? j := by
  intro rs
  induction rs with
  | nil => intro i j _; rfl
  | cons r rest ih =>
    intro i j hne
    cases i with
    | zero =>
      cases j with
      | zero => exact absurd rfl hne
      | succ m => rfl
    | succ n =>
      cases j with
      | zero => rfl
      | succ m =>
        show (addToIdx d rest n).get? m = rest.get? m
        exact ih n m (by omega)

theorem get?_addToIdx_address (d : ℚ) :
    ∀ (rs : List Recipient) (i : ℕ),
      ((addToIdx d rs i).get? i).map Recipient.address =
        (rs.get? i).map Recipient.address := by
  intro rs
  induction rs with
  | nil => intro i; rfl
  | cons r rest ih =>
    intro i
    cases i with
    | zero => rfl
    | succ n =>
      show ((addToIdx d rest n).get? n).map Recipient.address = _
      exact ih n

theorem firstPass_minersA : firstPass minersA 1 = rsA := by
  show firstPass [⟨"addr_a", 1⟩, ⟨"addr_b", 1⟩, ⟨"addr_c", 1⟩] 1 = rsA
  simp only [firstPass, totalPercentage, minersA, List.map_cons, List.map_nil,
    List.sum_cons, List.sum_nil, List.filterMap_cons, List.filterMap_nil, rsA]
  norm_num [pyRound8_third]

theorem discrepancy_minersA :
    pyRound8 (1 - runningTotal (firstPass minersA 1)) = 1 / 100000000 := by
  rw [firstPass_minersA]
  have h1 : (1 : ℚ) - runningTotal rsA = 1 / 100000000 := by
    norm_num [runningTotal, rsA]
  rw [h1]
  exact pyRound8_of_is8dp ⟨1, by norm_num⟩

/-- C1: for every participation set with at least one positive rounded
share and every positive 8-decimal total amount, the recipient amounts of
the distribution produced by `generate_distribution` sum to exactly the
total amount after the rounding-discrepancy correction.  (The source
function has no fee parameter, so there is no fee recipient; the fee clause
of the claim is vacuous for this code.) -/
theorem generate_distribution_sum_exact (miners : List Miner) (t : ℚ)
    (name : String) (d : Distribution) (ht : 0 < t) (ht8 : is8dp t)
    (h : generate_distribution miners t name = some d)
    (hne : d.recipients ≠ []) :
    runningTotal d.recipients = t := by
  obtain ⟨hrec, hfp⟩ := generate_distribution_recipients miners t name d h hne
  rw [hrec]
  exact runningTotal_applyCorrection t _ hfp (firstPass_is8dp miners t) ht8

/-- Witness for C1: three equal miners, total 1; the amounts sum to 1. -/
theorem generate_distribution_sum_exact_witness :
    runningTotal dA.recipients = 1 :=
  generate_distribution_sum_exact minersA 1 "ergo" dA (by norm_num)
    ⟨100000000, by norm_num⟩ generate_distribution_minersA (by simp [dA])

/-- C5 counterexample: on the nonempty participation set `[("addr_z", 0)]`
(weights summing to zero) with total amount 1, `generate_distribution`
divides by zero (`ZeroDivisionError`, modelled as `none`) instead of
returning an empty Distribution. -/
theorem generate_distribution_zero_weight_counterexample :
    generate_distribution [⟨"addr_z", 0⟩] 1 "ergo" = none ∧
      generate_distribution [⟨"addr_z", 0⟩] 1 "ergo" ≠ some ⟨"ergo", []⟩ := by
  constructor
  · simp [generate_distribution, totalPercentage]
  · simp [generate_distribution, totalPercentage]

/-- C5 amended: an empty participation set yields an empty distribution
without error, but a nonempty participation set whose weights sum to zero
makes `generate_distribution` raise `ZeroDivisionError` (modelled `none`)
at the first normalization instead of returning an empty Distribution. -/
theorem generate_distribution_empty_or_zero_weight (miners : List Miner)
    (t : ℚ) (name : String) :
    (miners = [] → generate_distribution miners t name = some ⟨name, []⟩) ∧
    (miners ≠ [] → totalPercentage miners = 0 →
      generate_distribution miners t name = none) := by
  constructor
  · rintro rfl
    rfl
  · intro hne h0
    cases miners with
    | nil => exact absurd rfl hne
    | cons m ms =>
      simp only [generate_distribution]
      rw [if_pos h0]

/-- Witness for C5 (amended) at an empty set and at a zero-weight set. -/
theorem generate_distribution_empty_or_zero_weight_witness :
    generate_distribution ([] : List Miner) 1 "ergo" = some ⟨"ergo", []⟩ ∧
      generate_distribution [⟨"addr_y", 0⟩] 1 "ergo" = none :=
  ⟨(generate_distribution_empty_or_zero_weight [] 1 "ergo").1 rfl,
   (generate_distribution_empty_or_zero_weight [⟨"addr_y", 0⟩] 1 "ergo").2
     (by simp) (by simp [totalPercentage])⟩

/-- C6: whenever the rounding discrepancy is non-zero (and the first-pass
recipient list is nonempty), `generate_distribution` adds the entire
discrepancy to exactly one recipient: the one with the largest first-pass
amount, and when several tie for the largest, the first such recipient in
the order of the participation set. -/
theorem generate_distribution_discrepancy_first_largest (miners : List Miner)
    (t : ℚ) (name : String) (d : Distribution)
    (h : generate_distribution miners t name = some d)
    (hne : firstPass miners t ≠ [])
    (hd : pyRound8 (t - runningTotal (firstPass miners t)) ≠ 0) :
    ∃ i, ∃ hi : i < (firstPass miners t).length,
      (∀ j (hj : j < (firstPass miners t).length),
        ((firstPass miners t).get ⟨j, hj⟩).amount ≤
          ((firstPass miners t).get ⟨i, hi⟩).amount) ∧
      (∀ j (hj : j < i),
        ((firstPass miners t).get ⟨j, lt_trans hj hi⟩).amount <
          ((firstPass miners t).get ⟨i, hi⟩).amount) ∧
      d.recipients = (firstPass miners t).set i
        ⟨((firstPass miners t).get ⟨i, hi⟩).address,
          ((firstPass miners t).get ⟨i, hi⟩).amount +
            pyRound8 (t - runningTotal (firstPass miners t))⟩ := by
  have hdr : d.recipients = applyCorrection t (firstPass miners t) := by
    rcases generate_distribution_some miners t name d h with ⟨rfl, rfl⟩ | ⟨h0, rfl⟩
    · exact absurd rfl hne
    · rfl
  have hmapne : (firstPass miners t).map (·.amount) ≠ [] := by
    simpa [List.map_eq_nil_iff] using hne
  have hilt : firstMaxIdx ((firstPass miners t).map (·.amount)) <
      (firstPass miners t).length := by
    have := fmi_lt ((firstPass miners t).map (·.amount)) hmapne
    simpa using this
  refine ⟨firstMaxIdx ((firstPass miners t).map (·.amount)), hilt, ?_, ?_, ?_⟩
  · intro j hj
    apply fmi_max ((firstPass miners t).map (·.amount)) j
    · rw [List.get?_map, List.get?_eq_get hj]
      rfl
    · rw [List.get?_map, List.get?_eq_get hilt]
      rfl
  · intro j hj
    apply fmi_first ((firstPass miners t).map (·.amount)) j _ _ hj
    · rw [List.get?_map, List.get?_eq_get (lt_trans hj hilt)]
      rfl
    · rw [List.get?_map, List.get?_eq_get hilt]
      rfl
  · rw [hdr]
    unfold applyCorrection
    rw [if_neg hne, if_pos hd]
    rw [addToIdx_set _ (firstPass miners t) _ hilt]
    rw [pyRound8_of_is8dp (is8dp_add
      (firstPass_is8dp miners t _ (List.get_mem (firstPass miners t) _ hilt))
      (is8dp_pyRound8 _))]

/-- Witness for C6: three equal miners, total 1; discrepancy 0.00000001
goes to the first recipient. -/
theorem generate_distribution_discrepancy_first_largest_witness :
    ∃ i, ∃ hi : i < (firstPass minersA 1).length,
      (∀ j (hj : j < (firstPass minersA 1).length),
        ((firstPass minersA 1).get ⟨j, hj⟩).amount ≤
          ((firstPass minersA 1).get ⟨i, hi⟩).amount) ∧
      (∀ j (hj : j < i),
        ((firstPass minersA 1).get ⟨j, lt_trans hj hi⟩).amount <
          ((firstPass minersA 1).get ⟨i, hi⟩).amount) ∧
      dA.recipients = (firstPass minersA 1).set i
        ⟨((firstPass minersA 1).get ⟨i, hi⟩).address,
          ((firstPass minersA 1).get ⟨i, hi⟩).amount +
            pyRound8 (1 - runningTotal (firstPass minersA 1))⟩ :=
  generate_distribution_discrepancy_first_largest minersA 1 "ergo" dA
    generate_distribution_minersA
    (by rw [firstPass_minersA]; simp [rsA])
    (by rw [discrepancy_minersA]; norm_num)

/-- C9: when the rounding-discrepancy correction fires, only the amount of
the single selected recipient changes: the list keeps its length and
order, every other position is untouched, and the selected recipient's
address is unchanged. -/
theorem generate_distribution_correction_frame (miners : List Miner)
    (t : ℚ) (name : String) (d : Distribution)
    (h : generate_distribution miners t name = some d)
    (hne : firstPass miners t ≠ [])
    (hd : pyRound8 (t - runningTotal (firstPass miners t)) ≠ 0) :
    ∃ i, i < (firstPass miners t).length ∧
      d.recipients.length = (firstPass miners t).length ∧
      (∀ j, j ≠ i → d.recipients.get? j = (firstPass miners t).get? j) ∧
      (d.recipients.get? i).map Recipient.address =
        ((firstPass miners t).get? i).map Recipient.address := by
  have hdr : d.recipients =
      addToIdx (pyRound8 (t - runningTotal (firstPass miners t)))
        (firstPass miners t)
        (firstMaxIdx ((firstPass miners t).map (·.amount))) := by
    rcases generate_distribution_some miners t name d h with ⟨rfl, rfl⟩ | ⟨h0, rfl⟩
    · exact absurd rfl hne
    · show applyCorrection t (firstPass miners t) = _
      unfold applyCorrection
      rw [if_neg hne, if_pos hd]
  have hmapne : (firstPass miners t).map (·.amount) ≠ [] := by
    simpa [List.map_eq_nil_iff] using hne
  have hilt : firstMaxIdx ((firstPass miners t).map (·.amount)) <
      (firstPass miners t).length := by
    have := fmi_lt ((firstPass miners t).map (·.amount)) hmapne
    simpa using this
  refine ⟨firstMaxIdx ((firstPass miners t).map (·.amount)), hilt, ?_, ?_, ?_⟩
  · rw [hdr]
    exact length_addToIdx _ (firstPass miners t) _
  · intro j hj
    rw [hdr]
    exact get?_addToIdx_ne _ (firstPass miners t) _ j hj
  · rw [hdr]
    exact get?_addToIdx_address _ (firstPass miners t) _

/-- Witness for C9 at `minersA`, total 1. -/
theorem generate_distribution_correction_frame_witness :
    ∃ i, i < (firstPass minersA 1).length ∧
      dA.recipients.length = (firstPass minersA 1).length ∧
      (∀ j, j ≠ i → dA.recipients.get? j = (firstPass minersA 1).get? j) ∧
      (dA.recipients.get? i).map Recipient.address =
        ((firstPass minersA 1).get? i).map Recipient.address :=
  generate_distribution_correction_frame minersA 1 "ergo" dA
    generate_distribution_minersA
    (by rw [firstPass_minersA]; simp [rsA])
    (by rw [discrepancy_minersA]; norm_num)

/-- C2: the claim asserts that every page fetch in the two scans uses one
shared limit constant; in the code `get_latest_outgoing_block` fetches
with limit 50 while the `get_blocks_since_last_outgoing` loop fetches with
limit 100. -/
theorem page_limits_differ : latestOutgoingPageLimit ≠ blocksSincePageLimit := by
  decide

/-- C3: over any fixed ordered history, the collection loop yields the same
block set for any positive page size held constant through the run. -/
theorem collect_blocks_page_size_independent (history : List Tx)
    (min_block : ℤ) (l1 l2 : ℕ) (h1 : 0 < l1) (h2 : 0 < l2) :
    collectBlocksWith history noFail min_block l1 =
      collectBlocksWith history noFail min_block l2 := by
  unfold collectBlocksWith
  rw [collectLoop_noFail history min_block l1 h1 history.length 0 ∅ (by omega),
    collectLoop_noFail history min_block l2 h2 history.length 0 ∅ (by omega)]

/-- Witness for C3 on the 54-record feed: page sizes 50 and 100 agree, and
page size 50 still returns the four qualifying records at positions 51–54
because the walker continues past a full page. -/
theorem collect_blocks_page_size_independent_witness :
    collectBlocksWith feed54 noFail 1509800 50 =
      collectBlocksWith feed54 noFail 1509800 100 ∧
    collectBlocksWith feed54 noFail 1509800 50 =
      some [1509846, 1509996, 1510211, 1510299] := by
  constructor
  · exact collect_blocks_page_size_independent feed54 1509800 50 100
      (by norm_num) (by norm_num)
  · unfold collectBlocksWith
    rw [collectLoop_noFail feed54 1509800 50 (by norm_num) feed54.length 0 ∅
      (by omega)]
    simp only [Option.map_some']
    congr 1
    rw [Finset.empty_union]
    exact sort_eq_of_sorted_nodup _ _ (by decide) (by decide) (by decide)

/-- C4 counterexample: with a failing first page fetch over the nonempty
history `histC`, `get_blocks_since_last_outgoing` catches the exception and
returns `[]` — the same value as for an empty history — surfacing no error,
while the failure-free run over the same history returns `[1500000]`. -/
theorem blocks_since_fetch_failure_counterexample :
    get_blocks_since_last_outgoing histC failAll 0 = [] ∧
      get_blocks_since_last_outgoing [] noFail 0 = [] ∧
      get_blocks_since_last_outgoing histC noFail 0 = [1500000] := by
  refine ⟨?_, ?_, ?_⟩
  · have hcl : collectLoop histC failAll 1449260 blocksSincePageLimit 0 ∅ = none := by
      rw [collectLoop]
      simp [failAll]
    simp [get_blocks_since_last_outgoing, collectBlocksWith, hcl]
  · have hcl := collectLoop_noFail [] 1449260 blocksSincePageLimit
      (by norm_num [blocksSincePageLimit]) 0 0 ∅ (by simp)
    simp [get_blocks_since_last_outgoing, collectBlocksWith, hcl, qualifying]
  · have hcl := collectLoop_noFail histC 1449260 blocksSincePageLimit
      (by norm_num [blocksSincePageLimit]) histC.length 0 ∅ (by omega)
    have hq : qualifying 1449260 histC = {1500000} := by decide
    simp [get_blocks_since_last_outgoing, collectBlocksWith, hcl, hq]

/-- C4 amended: a failed page fetch during the block-collection scan is
caught inside `get_blocks_since_last_outgoing`; the method returns the
empty list — indistinguishable from a genuinely empty block set — and no
error reaches the caller. -/
theorem blocks_since_fetch_failure_returns_empty (history : List Tx)
    (fails : ℕ → Bool) (latest : ℤ)
    (h : collectLoop history fails 1449260 blocksSincePageLimit 0 ∅ = none) :
    get_blocks_since_last_outgoing history fails latest = [] := by
  simp [get_blocks_since_last_outgoing, collectBlocksWith, h]

/-- Witness for C4 (amended): the all-failing oracle on `histC`. -/
theorem blocks_since_fetch_failure_returns_empty_witness :
    get_blocks_since_last_outgoing histC failAll 5 = [] :=
  blocks_since_fetch_failure_returns_empty histC failAll 5 (by
    rw [collectLoop]
    simp [failAll])

/-- C7: any block list that the collection loop returns is duplicate-free,
strictly ascending, and each element lies strictly above the reference
height used by the loop. -/
theorem collect_blocks_nodup_sorted_above_ref (history : List Tx)
    (fails : ℕ → Bool) (min_block : ℤ) (limit : ℕ) (blocks : List ℤ)
    (h : collectBlocksWith history fails min_block limit = some blocks) :
    blocks.Nodup ∧ blocks.Sorted (· < ·) ∧ ∀ x ∈ blocks, min_block < x := by
  unfold collectBlocksWith at h
  cases hcl : collectLoop history fails min_block limit 0 ∅ with
  | none =>
    rw [hcl] at h
    simp at h
  | some s =>
    rw [hcl] at h
    simp only [Option.map_some', Option.some.injEq] at h
    subst h
    refine ⟨Finset.sort_nodup _ _, Finset.sort_sorted_lt s, ?_⟩
    intro x hx
    rw [Finset.mem_sort] at hx
    rcases collectLoop_mem history fails min_block limit history.length 0 ∅ s
      (by omega) hcl x hx with h0 | h0
    · simp at h0
    · exact h0

/-- Witness for C7 on a one-record history above reference height 7. -/
theorem collect_blocks_nodup_sorted_above_ref_witness :
    ([10] : List ℤ).Nodup ∧ ([10] : List ℤ).Sorted (· < ·) ∧
      ∀ x ∈ ([10] : List ℤ), (7 : ℤ) < x :=
  collect_blocks_nodup_sorted_above_ref histB noFail 7 1 [10] (by
    unfold collectBlocksWith
    rw [collectLoop_noFail histB 7 1 (by norm_num) histB.length 0 ∅ (by omega)]
    simp only [Option.map_some']
    congr 1
    rw [Finset.empty_union]
    have hq : qualifying 7 (List.drop 0 histB) = {10} := by decide
    rw [hq]
    simp)

/-- C8 counterexample: in `hist51` the only record whose inputs carry the
wallet address sits at position 51 with height 1000; the code inspects only
the first 50 records and returns the sentinel 0 despite the match. -/
theorem get_latest_outgoing_single_page_counterexample :
    get_latest_outgoing_block hist51 "addr_w" false = 0 ∧
      (⟨1000, [some "addr_w"]⟩ : Tx) ∈ hist51 ∧
      isOutgoingTx "addr_w" ⟨1000, [some "addr_w"]⟩ = true ∧
      (1000 : ℤ) ≠ 0 := by
  refine ⟨by decide, by decide, by decide, by decide⟩

/-- C8 amended: `get_latest_outgoing_block` fetches one single page of the
50 newest records; it returns the inclusion height of the most recent
record within that page whose inputs contain the wallet address, and the
sentinel 0 when that page (in particular, an empty history) has no match —
even when a matching record exists beyond position 50. -/
theorem get_latest_outgoing_first_page_only (history : List Tx) (w : String) :
    ((∀ tx ∈ page history 0 latestOutgoingPageLimit,
        isOutgoingTx w tx = false) →
      get_latest_outgoing_block history w false = 0) ∧
    (∀ i tx, (page history 0 latestOutgoingPageLimit).get? i = some tx →
      isOutgoingTx w tx = true →
      (∀ j, j < i → ∀ tx2,
        (page history 0 latestOutgoingPageLimit).get? j = some tx2 →
        isOutgoingTx w tx2 = false) →
      get_latest_outgoing_block history w false = tx.inclusionHeight) := by
  constructor
  · intro hall
    unfold get_latest_outgoing_block
    rw [List.find?_eq_none.mpr (fun x hx => by simp [hall x hx])]
    rfl
  · intro i tx hget hp hmin
    unfold get_latest_outgoing_block
    rw [find?_first (isOutgoingTx w) _ i tx hget hp hmin]
    rfl

/-- Witness for C8 (amended): a single-record history whose newest record
is outgoing. -/
theorem get_latest_outgoing_first_page_only_witness :
    get_latest_outgoing_block [⟨5, [some "addr_w"]⟩] "addr_w" false = 5 :=
  (get_latest_outgoing_first_page_only [⟨5, [some "addr_w"]⟩] "addr_w").2 0
    ⟨5, [some "addr_w"]⟩ (by decide) (by decide)
    (fun j hj => absurd hj (Nat.not_lt_zero j))

/-- C10: `get_blocks_since_last_outgoing` filters against the hard-coded
reference height 1449260, so its result does not depend on the height
obtained from the latest-outgoing scan, and the empty-set branch for a
missing reference is unreachable: the result always equals the collection
result at reference 1449260. -/
theorem blocks_since_ignores_reference_scan (history : List Tx)
    (fails : ℕ → Bool) (g g2 : ℤ) :
    get_blocks_since_last_outgoing history fails g =
      get_blocks_since_last_outgoing history fails g2 ∧
    get_blocks_since_last_outgoing history fails g =
      (match collectBlocksWith history fails 1449260 blocksSincePageLimit with
       | some blocks => blocks
       | none => []) :=
  ⟨rfl, rfl⟩

end TokenFlight
